import Mathlib

/-!
Verification development for the BOT_CLI contact-directory program
(`src/main.py`, `src/main1.py`).

Strings are modelled as `List Char` (ASCII), Python `int` values as `Nat`
or `Int`.  Each definition is a shallow embedding of the corresponding
Python function; the doc comment of a definition names its source.
-/

namespace BotCli

/-- Python strings, modelled as lists of characters. -/
abbrev Str := List Char

/-- Literal helper: the character list of a Lean string literal. -/
def strL (s : String) : Str := s.data

/-- Model of Python `str.isdigit` on ASCII text: the character is one of
the decimal digits `'0'`(48)…`'9'`(57). -/
def isDig (c : Char) : Bool := 48 ≤ c.toNat && c.toNat ≤ 57

/-- Model of `is_valid_phone` (main1.py line 20) and the identical check in the
`Phone.value` setter (main.py line 42): exactly 10 characters, all digits. -/
def isValidPhone (p : Str) : Bool := p.length == 10 && p.all isDig

/-- Construction of a `Phone` (main.py lines 32–44 / main1.py lines 25–29):
store the raw string if it passes `isValidPhone`, otherwise raise
`ValueError` (the spec's `ValidationError`). -/
def phoneNew (p : Str) : Except String Str :=
  if isValidPhone p then .ok p
  else .error "Phone number must be 10 digits and consist of digits only"

/-- A `Record` (main.py lines 66–75): a name, an ordered list of phone
values (each stored via `Phone`, hence a raw string), and an optional
birthday string (stored via `Birthday`). -/
structure Rec where
  name : Str
  phones : List Str
  birthday : Option Str
deriving DecidableEq, Repr

/-- Model of `Record.edit_phone` of main.py (lines 103–109), in state-passing form:
the result flag together with the phone list after the call.  The
assignment `p.value = new_phone` runs the `Phone` setter, which validates
`new_phone` *before* storing it, so on a validation failure the list is
returned unchanged. -/
def editPhoneM : List Str → Str → Str → Except String Unit × List Str
  | [], _, _ => (.error "Phone number not found", [])
  | p :: rest, o, n =>
    if p = o then
      if isValidPhone n then (.ok (), n :: rest)
      else (.error "Phone number must be 10 digits and consist of digits only", p :: rest)
    else
      let r := editPhoneM rest o n
      (r.1, p :: r.2)

/-- The search-and-replace loop of `Record.edit_phone` in main1.py
(lines 53–58): overwrite the first phone equal to `o` with `n`
*without any validation* (main1.py's `Field.value` is a plain attribute). -/
def replaceFirst : List Str → Str → Str → Option (List Str)
  | [], _, _ => none
  | p :: rest, o, n =>
    if p = o then some (n :: rest) else (replaceFirst rest o n).map (fun l => p :: l)

/-- Model of `Record.edit_phone` of main1.py (lines 52–61), in state-passing form:
the phone is overwritten first, and only afterwards is `new_phone`
validated (lines 60–61), so a `ValueError` can be raised with the invalid
value already stored in the list. -/
def editPhoneM1 (phones : List Str) (o n : Str) : Except String Unit × List Str :=
  match replaceFirst phones o n with
  | none => (.error "Phone number not found", phones)
  | some l =>
    if isValidPhone n then (.ok (), l)
    else (.error "New phone number must be 10 digits", l)

/-- Gregorian leap-year rule, as used by Python's `datetime` module. -/
def isLeap (y : Nat) : Bool := y % 4 == 0 && (y % 100 != 0 || y % 400 == 0)

/-- 1 in a leap year, 0 otherwise. -/
def leapBit (y : Nat) : Nat := if isLeap y then 1 else 0

/-- Month lengths of a non-leap year (`datetime`'s `_DAYS_IN_MONTH` table);
0 outside 1–12. -/
def dimBase : Nat → Nat
  | 1 => 31 | 2 => 28 | 3 => 31 | 4 => 30 | 5 => 31 | 6 => 30
  | 7 => 31 | 8 => 31 | 9 => 30 | 10 => 31 | 11 => 30 | 12 => 31
  | _ => 0

/-- Model of `datetime`'s `_days_in_month`: the base table plus one day for
February of a leap year. -/
def daysInMonth (y m : Nat) : Nat := dimBase m + (if m = 2 then leapBit y else 0)

/-- A calendar date (`datetime.date`) as a year/month/day triple. -/
structure Date where
  y : Nat
  m : Nat
  d : Nat
deriving DecidableEq, Repr

/-- Numeric value of a string of decimal digits. -/
def natOf (l : Str) : Nat := l.foldl (fun n c => 10 * n + (c.toNat - 48)) 0

/-- Strip leading and trailing ASCII spaces, as Python `int(...)` does
before reading the number (the only whitespace the modelled inputs can
carry is the space of `%d`'s space-padded alternative). -/
def stripSp (l : Str) : Str :=
  ((l.dropWhile (fun c => c == ' ')).reverse.dropWhile (fun c => c == ' ')).reverse

/-- Model of Python `int(...)` on a matched field or split piece of a
date string: strip the surrounding spaces, then read the digits (so
`int(" 1") = 1`). -/
def pyIntVal (l : Str) : Nat := natOf (stripSp l)

/-- Python `str.split("-")`: the dash-separated pieces of a string
(always a non-empty list of dash-free pieces). -/
def splitDash : Str → List Str
  | [] => [[]]
  | c :: cs =>
    match splitDash cs with
    | [] => [[]]
    | t :: ts => if c = '-' then [] :: t :: ts else (c :: t) :: ts

/-- Inverse of `splitDash`: interleave the pieces with dashes. -/
def joinDash : List Str → Str
  | [] => []
  | [p] => p
  | p :: ps => p ++ '-' :: joinDash ps

/-- The `%m` field of CPython's `_strptime` regex, `1[0-2]|0[1-9]|[1-9]`:
a month written with one or two digits ('0' = 48 … '9' = 57). -/
def isMonthTok (t : Str) : Bool :=
  match t with
  | [c] => 49 ≤ c.toNat && c.toNat ≤ 57
  | [c1, c2] =>
    (c1.toNat == 49 && (48 ≤ c2.toNat && c2.toNat ≤ 50)) ||
    (c1.toNat == 48 && (49 ≤ c2.toNat && c2.toNat ≤ 57))
  | _ => false

/-- The `%d` field of CPython's `_strptime` regex (`_strptime.py`),
`3[0-1]|[1-2]\d|0[1-9]|[1-9]| [1-9]`: a day written with one or two
digits, the last alternative being a space-padded single digit. -/
def isDayTok (t : Str) : Bool :=
  match t with
  | [c] => 49 ≤ c.toNat && c.toNat ≤ 57
  | [c1, c2] =>
    (c1.toNat == 51 && (48 ≤ c2.toNat && c2.toNat ≤ 49)) ||
    ((c1.toNat == 49 || c1.toNat == 50) && (48 ≤ c2.toNat && c2.toNat ≤ 57)) ||
    (c1.toNat == 48 && (49 ≤ c2.toNat && c2.toNat ≤ 57)) ||
    (c1 == ' ' && (49 ≤ c2.toNat && c2.toNat ≤ 57))
  | _ => false

/-- Model of `datetime.strptime(s, "%Y-%m-%d")` (main.py line 59): the
anchored regex `(?P<Y>\d\d\d\d)-(?P<m>1[0-2]|0[1-9]|[1-9])-`
`(?P<d>3[0-1]|[1-2]\d|0[1-9]|[1-9]| [1-9])` must match the whole string
(its acceptance is equivalent to splitting on the dashes, since the
year, month and day fields are dash-free); each matched field is then
read with `int(...)` — which strips the space padding `%d` can match —
and passed to the `datetime` constructor, which checks `1 ≤ y ≤ 9999`,
`1 ≤ m ≤ 12` and `1 ≤ d ≤ days_in_month(y, m)`.  The year and month
fields cannot contain spaces, so plain digit reading equals `int()`
there. -/
def strptimeYmd (s : Str) : Option Date :=
  match splitDash s with
  | [a, b, c] =>
    if a.length == 4 && a.all isDig && isMonthTok b && isDayTok c then
      if 1 ≤ natOf a ∧ natOf a ≤ 9999 ∧ 1 ≤ natOf b ∧ natOf b ≤ 12 ∧
         1 ≤ pyIntVal c ∧ pyIntVal c ≤ daysInMonth (natOf a) (natOf b)
      then some ⟨natOf a, natOf b, pyIntVal c⟩ else none
    else none
  | _ => none

/-- Construction of a `Birthday` (main.py lines 48–62): store the raw
string if `strptime` accepts it, otherwise raise `ValueError`. -/
def birthdayNew (s : Str) : Except String Str :=
  match strptimeYmd s with
  | some _ => .ok s
  | none => .error "Invalid birthday format. Please use 'YYYY-MM-DD' format."

/-- The validation rule claimed by the spec for `Birthday`, stated from
its words: an exact `YYYY-MM-DD` pattern with a 4-digit year, a 2-digit
zero-padded month 01–12 and a 2-digit zero-padded day valid for that
month and year. -/
def specStrictYmd (s : Str) : Prop :=
  ∃ a b c : Str, s = a ++ '-' :: (b ++ '-' :: c) ∧
    a.length = 4 ∧ b.length = 2 ∧ c.length = 2 ∧
    (∀ ch ∈ a ++ b ++ c, isDig ch = true) ∧
    1 ≤ natOf b ∧ natOf b ≤ 12 ∧ 1 ≤ natOf c ∧
    natOf c ≤ daysInMonth (natOf a) (natOf b)

/-- Model of Python `str.lower` on ASCII text: map `'A'`(65)…`'Z'`(90) to
the corresponding lowercase letter, leave everything else unchanged. -/
def lowerChar (c : Char) : Char :=
  if h : 65 ≤ c.toNat ∧ c.toNat ≤ 90 then Char.ofNatAux (c.toNat + 32) (Or.inl (by omega))
  else c

/-- Python `str.lower` applied characterwise. -/
def lowerS (s : Str) : Str := s.map lowerChar

/-- Whether the first list is an initial segment of the second. -/
def startsWithL : Str → Str → Bool
  | [], _ => true
  | _ :: _, [] => false
  | a :: as, b :: bs => a == b && startsWithL as bs

/-- Python's substring test `q in s`: `q` occurs contiguously in `s`
(the empty string occurs in every string). -/
def hasSub (q : Str) : Str → Bool
  | [] => q.isEmpty
  | c :: rest => startsWithL q (c :: rest) || hasSub q rest

/-- An `AddressBook`'s backing dict (`self.data`): an association list in
key insertion order (Python dicts preserve insertion order). -/
abbrev Book := List (Str × Rec)

/-- Model of `self.values()`: the records in key insertion order. -/
def valuesOf (book : Book) : List Rec := book.map Prod.snd

/-- The body of `AddressBook.find`'s loop for one record (main.py lines
139–144): append the record once if the lowercased query occurs in the
lowercased name, then once more for every phone value containing the
lowercased query. -/
def findMatches (q : Str) (r : Rec) : List Rec :=
  (if hasSub (lowerS q) (lowerS r.name) then [r] else []) ++
  (r.phones.filter (fun p => hasSub (lowerS q) p)).map (fun _ => r)

/-- Model of `AddressBook.find` (main.py lines 137–145). -/
def find (book : Book) (q : Str) : List Rec := (valuesOf book).flatMap (findMatches q)

/-- Model of `list(self.data)`: the keys in insertion order. -/
def keysOf (book : Book) : List Str := book.map Prod.fst

/-- Lookup `record_keys[i]` for an index produced by the iterator's `range`. -/
def keyAt (book : Book) (i : Nat) : Str := ((keysOf book)[i]?).getD []

/-- Model of `self.data[k]`: dict lookup by key (first matching entry). -/
def dictGet (book : Book) (k : Str) : Rec :=
  ((book.find? (fun kv => kv.1 == k)).map Prod.snd).getD ⟨[], [], none⟩

/-- Python `range(a, c)` over machine integers. -/
def intRange (a c : Int) : List Int :=
  (List.range (c - a).toNat).map (fun n : Nat => a + (n : Int))

/-- One yielded batch of `AddressBook.iterator` (main.py lines 157–158):
`[self.data[record_keys[i]] for i in range(current_batch,
min(current_batch + batch_size, len(record_keys)))]`. -/
def sliceB (book : Book) (cur b : Int) : List Rec :=
  (intRange cur (min (cur + b) (book.length : Int))).map
    (fun i => dictGet book (keyAt book i.toNat))

/-- The full run of the `iterator` generator (main.py lines 153–159),
collecting every yielded batch, with explicit fuel: `none` means the
`while current_batch < len(record_keys)` loop has not finished within
`fuel` iterations. -/
def iterRun (fuel : Nat) (book : Book) (b cur : Int) : Option (List (List Rec)) :=
  match fuel with
  | 0 => none
  | fuel + 1 =>
    if cur < (book.length : Int) then
      (iterRun fuel book b (cur + b)).map (fun bs => sliceB book cur b :: bs)
    else some []

/-- One iteration of the generator's `while` loop, on the loop counter
alone: yield and advance `current_batch += batch_size`, or stop. -/
def iterStep (len : Nat) (b cur : Int) : Option Int :=
  if cur < (len : Int) then some (cur + b) else none

/-- The loop counter after `n` yielded batches (`some` while the loop is
still running, `none` once it has exited). -/
def iterCur (len : Nat) (b : Int) : Nat → Option Int
  | 0 => some 0
  | n + 1 => (iterCur len b n).bind (iterStep len b)

/-- The batches the iterator produces for batch size `b ≥ 1`, described
directly: successive groups of `b` records. -/
def chunksB {α : Type} (b : Nat) : List α → List (List α)
  | [] => []
  | x :: xs => (x :: xs.take (b - 1)) :: chunksB b (xs.drop (b - 1))
termination_by l => l.length
decreasing_by simp [List.length_drop]; omega

/-- Error outcomes of `pickle.load`: a well-formed stream that references
an unknown class raises `AttributeError`; a malformed stream raises
`UnpicklingError` (or another non-`AttributeError` exception). -/
inductive PErr where
  | attrErr
  | unpickling
deriving DecidableEq, Repr

/-- Tokens of the pickled snapshot.  `pickle.dump` (main.py line 168)
serializes the whole object graph — class tags, field values, list
lengths; this flat token stream models exactly the data the snapshot
carries (names, phone lists in order, optional birthdays).  `tagOther`
stands for a global reference to a class unknown at load time. -/
inductive Tok where
  | nat : Nat → Tok
  | str : Str → Tok
  | tagBook
  | tagRecord
  | tagNone
  | tagSome
  | tagOther : Str → Tok
deriving DecidableEq, Repr

/-- Pickled form of one `Record`: its class tag, name, and phones (with
length prefix), then the optional birthday. -/
def encodeRec (r : Rec) : List Tok :=
  Tok.tagRecord :: Tok.str r.name :: Tok.nat r.phones.length ::
    (r.phones.map Tok.str ++
      (match r.birthday with
       | none => [Tok.tagNone]
       | some bd => [Tok.tagSome, Tok.str bd]))

/-- Pickled form of a whole `AddressBook`: class tag, entry count, and
the key/record pairs in insertion order. -/
def encodeBook (book : Book) : List Tok :=
  Tok.tagBook :: Tok.nat book.length ::
    book.flatMap (fun kv => Tok.str kv.1 :: encodeRec kv.2)

/-- Unpickling a length-prefixed phone list. -/
def decodePhones : Nat → List Tok → Except PErr (List Str × List Tok)
  | 0, rest => .ok ([], rest)
  | n + 1, Tok.str p :: rest =>
    match decodePhones n rest with
    | .ok (ps, rest2) => .ok (p :: ps, rest2)
    | .error e => .error e
  | _ + 1, _ => .error .unpickling

/-- Unpickling one `Record`; an unknown class tag raises
`AttributeError`, any other malformation `UnpicklingError`. -/
def decodeRec : List Tok → Except PErr (Rec × List Tok)
  | Tok.tagRecord :: Tok.str nm :: Tok.nat np :: rest =>
    (match decodePhones np rest with
     | .ok (ps, rest2) =>
       match rest2 with
       | Tok.tagNone :: rest3 => .ok (⟨nm, ps, none⟩, rest3)
       | Tok.tagSome :: Tok.str bd :: rest3 => .ok (⟨nm, ps, some bd⟩, rest3)
       | _ => .error .unpickling
     | .error e => .error e)
  | Tok.tagOther _ :: _ => .error .attrErr
  | _ => .error .unpickling

/-- Unpickling the entry list of an `AddressBook`. -/
def decodeEntries : Nat → List Tok → Except PErr (Book × List Tok)
  | 0, rest => .ok ([], rest)
  | n + 1, Tok.str k :: rest =>
    (match decodeRec rest with
     | .ok (r, rest2) =>
       match decodeEntries n rest2 with
       | .ok (es, rest3) => .ok ((k, r) :: es, rest3)
       | .error e => .error e
     | .error e => .error e)
  | _ + 1, _ => .error .unpickling

/-- Model of `pickle.load` on a full snapshot: the whole stream must be one
`AddressBook`. -/
def decodeBook : List Tok → Except PErr Book
  | Tok.tagBook :: Tok.nat n :: rest =>
    (match decodeEntries n rest with
     | .ok (es, []) => .ok es
     | .ok _ => .error .unpickling
     | .error e => .error e)
  | Tok.tagOther _ :: _ => .error .attrErr
  | _ => .error .unpickling

/-- Failures `AddressBookFileManager.load` can surface to its caller. -/
inductive LoadErr where
  | fileNotFound
  | unpickling
deriving DecidableEq, Repr

/-- Model of `AddressBookFileManager.save` (main.py lines 166–168): write the full
pickled snapshot, overwriting the file. -/
def save (book : Book) : List Tok := encodeBook book

/-- Model of `AddressBookFileManager.load` (main.py lines 170–175): `none` file
state means the file does not exist (`FileNotFoundError` propagates to
the caller); on a readable file, `pickle.load`'s `AttributeError` is
caught and converted to `None` (an absent book), while any other
unpickling failure propagates. -/
def load (fileC : Option (List Tok)) : Except LoadErr (Option Book) :=
  match fileC with
  | none => .error .fileNotFound
  | some ts =>
    match decodeBook ts with
    | .ok b => .ok (some b)
    | .error .attrErr => .ok none
    | .error .unpickling => .error .unpickling

/-- Running sum of month lengths: days of year `y` before month `m`. -/
def dbm (y : Nat) : Nat → Nat
  | 0 => 0
  | m + 1 => dbm y m + daysInMonth y m

/-- Value of `dbm` for a non-leap year. -/
def dbmBase : Nat → Nat
  | 0 => 0
  | m + 1 => dbmBase m + dimBase m

/-- Number of leap years in 1..y (`datetime`'s `_days_before_year`
correction): `y/4 - y/100 + y/400`. -/
def leapsBefore (y : Nat) : Nat := y / 4 - y / 100 + y / 400

/-- Model of `datetime.date.toordinal`: day count from 0001-01-01 (= day 1). -/
def toOrdinal (dt : Date) : Nat :=
  365 * (dt.y - 1) + leapsBefore (dt.y - 1) + dbm dt.y dt.m + dt.d

/-- The validity check of the `datetime.date` constructor:
`MINYEAR ≤ y ≤ MAXYEAR`, `1 ≤ m ≤ 12`, `1 ≤ d ≤ days_in_month(y, m)`. -/
def validDate (dt : Date) : Prop :=
  1 ≤ dt.y ∧ dt.y ≤ 9999 ∧ 1 ≤ dt.m ∧ dt.m ≤ 12 ∧
    1 ≤ dt.d ∧ dt.d ≤ daysInMonth dt.y dt.m

instance instDecValidDate (dt : Date) : Decidable (validDate dt) := by
  unfold validDate
  infer_instance

/-- Python `date` comparison: chronological, i.e. lexicographic on
(year, month, day). -/
def dateLt (a b : Date) : Bool :=
  decide (a.y < b.y) ||
    (a.y == b.y && (decide (a.m < b.m) || (a.m == b.m && decide (a.d < b.d))))

/-- Model of `date.replace(year=y)` (main.py lines 83 and 85): rebuild the date
with a new year; the `date` constructor re-validates and raises
`ValueError` (e.g. "day is out of range for month" for Feb 29 in a
non-leap year). -/
def replaceYear (dt : Date) (y : Nat) : Except String Date :=
  if validDate ⟨y, dt.m, dt.d⟩ then .ok ⟨y, dt.m, dt.d⟩
  else .error "day is out of range for month"

/-- The core of `Record.days_to_birthday` (main.py lines 82–86) on an
already-parsed birthday date: re-anchor to the current year, roll to the
next year if already past, and return the day difference. -/
def daysToBirthdayD (bd : Option Date) (today : Date) : Except String (Option Int) :=
  match bd with
  | none => .ok none
  | some bdate =>
    match replaceYear bdate today.y with
    | .error e => .error e
    | .ok nb =>
      if dateLt nb today then
        match replaceYear nb (today.y + 1) with
        | .error e => .error e
        | .ok nb2 => .ok (some ((toOrdinal nb2 : Int) - (toOrdinal today : Int)))
      else .ok (some ((toOrdinal nb : Int) - (toOrdinal today : Int)))

/-- The `datetime.date(y, m, d)` constructor. -/
def pyDate (y m d : Nat) : Except String Date :=
  if validDate ⟨y, m, d⟩ then .ok ⟨y, m, d⟩
  else .error "invalid date"

/-- Model of `Record.days_to_birthday` (main.py lines 78–86): `None` when no
birthday is set; otherwise `date(*map(int, value.split("-")))` re-parses
the stored string (three dash-separated pieces, each read by `int(...)`,
which strips surrounding spaces — so a stored space-padded day like
`" 1"` converts to 1) and the core computation runs on it.  Python
errors are modelled as `.error`. -/
def recDaysToBirthday (r : Rec) (today : Date) : Except String (Option Int) :=
  match r.birthday with
  | none => .ok none
  | some s =>
    match splitDash s with
    | [a, b, c] =>
      if stripSp a ≠ [] ∧ (∀ ch ∈ stripSp a, isDig ch = true) ∧
         stripSp b ≠ [] ∧ (∀ ch ∈ stripSp b, isDig ch = true) ∧
         stripSp c ≠ [] ∧ (∀ ch ∈ stripSp c, isDig ch = true) then
        match pyDate (pyIntVal a) (pyIntVal b) (pyIntVal c) with
        | .error e => .error e
        | .ok bdate => daysToBirthdayD (some bdate) today
      else .error "invalid literal for int() with base 10"
    | _ => .error "TypeError"

/-- Concrete three-record book used to exercise the iterator. -/
def wbook3 : Book :=
  [(strL "A", ⟨strL "A", [strL "1111111111"], none⟩),
   (strL "B", ⟨strL "B", [], none⟩),
   (strL "C", ⟨strL "C", [], some (strL "2000-01-01")⟩)]

/-- Concrete one-record book. -/
def wbook1 : Book := [(strL "Bob", ⟨strL "Bob", [], none⟩)]

/-- Concrete one-record book whose record matches a query twice. -/
def wbookAnna : Book :=
  [(strL "Anna", ⟨strL "Anna", [strL "1234512345", strL "0001234000"], none⟩)]

/-- C5: For every string s, Phone(s) succeeds with .value equal to s if and
only if s has length exactly 10 and every character of s is a decimal digit
(ASCII '0'–'9'); every other string fails with ValidationError (the source's
`ValueError`). -/
theorem c5_phone_iff (s : Str) :
    phoneNew s =
      (if s.length = 10 ∧ ∀ c ∈ s, 48 ≤ c.toNat ∧ c.toNat ≤ 57 then Except.ok s
       else Except.error "Phone number must be 10 digits and consist of digits only") := by
  have h : (isValidPhone s = true) ↔
      (s.length = 10 ∧ ∀ c ∈ s, 48 ≤ c.toNat ∧ c.toNat ≤ 57) := by
    simp [isValidPhone, isDig, List.all_eq_true]
  by_cases hv : isValidPhone s = true
  · rw [phoneNew, if_pos hv, if_pos (h.mp hv)]
  · rw [phoneNew, if_neg hv, if_neg (fun hp => hv (h.mpr hp))]

/-- C1: evaluation of both `edit_phone` variants on a record whose phone
list is `["1234567890"]`, editing that phone to the invalid value
`"12345"`.  main1.py raises its `ValueError` only *after* overwriting the
phone, leaving the list as `["12345"]`; main.py's variant validates inside
the `Phone` setter first and leaves the list unchanged. -/
theorem c1_edit_phone_eval :
    editPhoneM1 [strL "1234567890"] (strL "1234567890") (strL "12345")
      = (.error "New phone number must be 10 digits", [strL "12345"]) ∧
    editPhoneM [strL "1234567890"] (strL "1234567890") (strL "12345")
      = (.error "Phone number must be 10 digits and consist of digits only",
         [strL "1234567890"]) := by
  exact ⟨rfl, rfl⟩

theorem splitDash_cons_eq (ch : Char) (cs t : Str) (ts : List Str)
    (h : splitDash cs = t :: ts) :
    splitDash (ch :: cs) = if ch = '-' then [] :: t :: ts else (ch :: t) :: ts := by
  simp only [splitDash, h]

theorem joinDash_single (p : Str) : joinDash [p] = p := rfl

theorem joinDash_cons2 (p q : Str) (ps : List Str) :
    joinDash (p :: q :: ps) = p ++ '-' :: joinDash (q :: ps) := rfl

theorem splitDash_ne_nil (s : Str) : splitDash s ≠ [] := by
  induction s with
  | nil => simp [splitDash]
  | cons c cs ih =>
    cases h : splitDash cs with
    | nil => exact absurd h ih
    | cons t ts =>
      rw [splitDash_cons_eq c cs t ts h]
      by_cases hch : c = '-' <;> simp [hch]

theorem joinDash_splitDash (s : Str) : joinDash (splitDash s) = s := by
  induction s with
  | nil => rfl
  | cons ch cs ih =>
    cases h : splitDash cs with
    | nil => exact absurd h (splitDash_ne_nil cs)
    | cons t ts =>
      rw [h] at ih
      rw [splitDash_cons_eq ch cs t ts h]
      by_cases hch : ch = '-'
      · rw [if_pos hch, joinDash_cons2, ih, hch]
        rfl
      · rw [if_neg hch]
        cases ts with
        | nil =>
          rw [joinDash_single] at ih
          rw [joinDash_single, ih]
        | cons t2 ts2 =>
          rw [joinDash_cons2] at ih
          rw [joinDash_cons2, List.cons_append, ih]

theorem splitDash_no_dash (a : Str) (h : '-' ∉ a) : splitDash a = [a] := by
  induction a with
  | nil => rfl
  | cons ch a' ih =>
    have hch : ch ≠ '-' := fun hc => h (hc ▸ List.mem_cons_self ch a')
    have ha' : '-' ∉ a' := fun hm => h (List.mem_cons_of_mem ch hm)
    rw [splitDash_cons_eq ch a' a' [] (ih ha'), if_neg hch]

theorem splitDash_append (a r : Str) (h : '-' ∉ a) :
    splitDash (a ++ '-' :: r) = a :: splitDash r := by
  induction a with
  | nil =>
    cases hr : splitDash r with
    | nil => exact absurd hr (splitDash_ne_nil r)
    | cons t ts =>
      rw [List.nil_append, splitDash_cons_eq '-' r t ts hr, if_pos rfl]
  | cons ch a' ih =>
    have hch : ch ≠ '-' := fun hc => h (hc ▸ List.mem_cons_self ch a')
    have ha' : '-' ∉ a' := fun hm => h (List.mem_cons_of_mem ch hm)
    rw [List.cons_append, splitDash_cons_eq ch _ a' (splitDash r) (ih ha'), if_neg hch]

theorem natOf_foldl (l : Str) (acc : Nat) :
    l.foldl (fun n c => 10 * n + (c.toNat - 48)) acc =
      acc * 10 ^ l.length + natOf l := by
  induction l generalizing acc with
  | nil => simp [natOf]
  | cons c cs ih =>
    simp only [List.foldl_cons, List.length_cons, natOf]
    rw [ih (10 * acc + (c.toNat - 48)), ih (10 * 0 + (c.toNat - 48))]
    ring

theorem natOf_lt (l : Str) (h : ∀ ch ∈ l, isDig ch = true) :
    natOf l < 10 ^ l.length := by
  induction l with
  | nil => simp [natOf]
  | cons c cs ih =>
    have hc : c.toNat - 48 ≤ 9 := by
      have := h c (List.mem_cons_self c cs)
      simp [isDig] at this
      omega
    have hcs : natOf cs < 10 ^ cs.length :=
      ih (fun ch hm => h ch (List.mem_cons_of_mem c hm))
    have : natOf (c :: cs) = (c.toNat - 48) * 10 ^ cs.length + natOf cs := by
      simp only [natOf, List.foldl_cons]
      rw [natOf_foldl]
      ring_nf
      rfl
    rw [this, List.length_cons, pow_succ]
    calc (c.toNat - 48) * 10 ^ cs.length + natOf cs
        < (c.toNat - 48) * 10 ^ cs.length + 10 ^ cs.length := by omega
      _ = (c.toNat - 48 + 1) * 10 ^ cs.length := by ring
      _ ≤ 10 * 10 ^ cs.length := Nat.mul_le_mul_right _ (by omega)
      _ = 10 ^ cs.length * 10 := by ring

theorem natOf_single (c : Char) : natOf [c] = c.toNat - 48 := by
  simp [natOf]

theorem natOf_pair (c1 c2 : Char) :
    natOf [c1, c2] = 10 * (c1.toNat - 48) + (c2.toNat - 48) := by
  simp [natOf]

theorem ne_dash_of_toNat {c : Char} (h : c.toNat ≠ 45) : c ≠ '-' := by
  intro heq
  subst heq
  exact h (by decide)

theorem ne_space_of_toNat {c : Char} (h : c.toNat ≠ 32) : c ≠ ' ' := by
  intro heq
  subst heq
  exact h (by decide)

theorem isDig_ne_space {c : Char} (h : isDig c = true) : c ≠ ' ' := by
  simp only [isDig, Bool.and_eq_true, decide_eq_true_eq] at h
  exact ne_space_of_toNat (by omega)

theorem stripSp_of_no_space {l : Str} (h : ∀ ch ∈ l, ch ≠ ' ') : stripSp l = l := by
  have h1 : l.dropWhile (fun c => c == ' ') = l := by
    cases l with
    | nil => rfl
    | cons c cs =>
      rw [List.dropWhile_cons,
        if_neg (by simp only [beq_iff_eq]; exact h c (List.mem_cons_self c cs))]
  unfold stripSp
  rw [h1]
  have h2 : l.reverse.dropWhile (fun c => c == ' ') = l.reverse := by
    cases hr : l.reverse with
    | nil => rfl
    | cons c cs =>
      have hc : c ∈ l := List.mem_reverse.mp (hr ▸ List.mem_cons_self c cs)
      rw [List.dropWhile_cons, if_neg (by simp only [beq_iff_eq]; exact h c hc)]
  rw [h2, List.reverse_reverse]

theorem stripSp_digits {l : Str} (h : ∀ ch ∈ l, isDig ch = true) : stripSp l = l :=
  stripSp_of_no_space (fun ch hm => isDig_ne_space (h ch hm))

theorem pyIntVal_digits {l : Str} (h : ∀ ch ∈ l, isDig ch = true) :
    pyIntVal l = natOf l := by
  unfold pyIntVal
  rw [stripSp_digits h]

theorem stripSp_space_cons {c : Char} (h : ¬(c == ' ') = true) :
    stripSp [' ', c] = [c] := by
  unfold stripSp
  rw [List.dropWhile_cons, if_pos (by simp), List.dropWhile_cons, if_neg h,
    List.reverse_singleton, List.dropWhile_cons, if_neg h, List.reverse_singleton]

theorem isMonthTok_facts (b : Str) (h : isMonthTok b = true) :
    (∀ ch ∈ b, isDig ch = true) ∧ 1 ≤ natOf b ∧ natOf b ≤ 12 := by
  match b with
  | [] => simp [isMonthTok] at h
  | [c] =>
    simp only [isMonthTok, Bool.and_eq_true, decide_eq_true_eq] at h
    refine ⟨?_, ?_, ?_⟩
    · intro ch hm
      rcases List.mem_singleton.mp hm with rfl
      simp [isDig]; omega
    · rw [natOf_single]; omega
    · rw [natOf_single]; omega
  | [c1, c2] =>
    simp only [isMonthTok, Bool.or_eq_true, Bool.and_eq_true, beq_iff_eq,
      decide_eq_true_eq] at h
    refine ⟨?_, ?_, ?_⟩
    · intro ch hm
      simp only [List.mem_cons, List.mem_singleton, List.not_mem_nil, or_false] at hm
      rcases hm with rfl | rfl <;> simp [isDig] <;> omega
    · rw [natOf_pair]; omega
    · rw [natOf_pair]; omega
  | c1 :: c2 :: c3 :: rest => simp [isMonthTok] at h

theorem isDayTok_facts (b : Str) (h : isDayTok b = true) :
    (∀ ch ∈ b, ch ≠ '-') ∧ (∀ ch ∈ stripSp b, isDig ch = true) ∧
    1 ≤ pyIntVal b ∧ pyIntVal b ≤ 31 := by
  match b with
  | [] => simp [isDayTok] at h
  | [c] =>
    simp only [isDayTok, Bool.and_eq_true, decide_eq_true_eq] at h
    have hs : stripSp [c] = [c] := stripSp_of_no_space (fun ch hm => by
      rcases List.mem_singleton.mp hm with rfl
      exact ne_space_of_toNat (by omega))
    refine ⟨?_, ?_, ?_, ?_⟩
    · intro ch hm
      rcases List.mem_singleton.mp hm with rfl
      exact ne_dash_of_toNat (by omega)
    · rw [hs]
      intro ch hm
      rcases List.mem_singleton.mp hm with rfl
      simp only [isDig, Bool.and_eq_true, decide_eq_true_eq]
      omega
    · unfold pyIntVal
      rw [hs, natOf_single]
      omega
    · unfold pyIntVal
      rw [hs, natOf_single]
      omega
  | [c1, c2] =>
    simp only [isDayTok, Bool.or_eq_true, Bool.and_eq_true, beq_iff_eq,
      decide_eq_true_eq] at h
    by_cases hsp1 : c1 = ' '
    · subst hsp1
      have hval : (' ' : Char).toNat = 32 := rfl
      have h2 : 49 ≤ c2.toNat ∧ c2.toNat ≤ 57 := by
        rcases h with ((h | h) | h) | h
        · omega
        · omega
        · omega
        · exact h.2
      have hne2 : ¬(c2 == ' ') = true := by
        simp only [beq_iff_eq]
        exact ne_space_of_toNat (by omega)
      have hs := stripSp_space_cons hne2
      refine ⟨?_, ?_, ?_, ?_⟩
      · intro ch hm
        rcases List.mem_cons.mp hm with rfl | hm2
        · exact (by decide : (' ' : Char) ≠ '-')
        · rcases List.mem_singleton.mp hm2 with rfl
          exact ne_dash_of_toNat (by omega)
      · rw [hs]
        intro ch hm
        rcases List.mem_singleton.mp hm with rfl
        simp only [isDig, Bool.and_eq_true, decide_eq_true_eq]
        omega
      · unfold pyIntVal
        rw [hs, natOf_single]
        omega
      · unfold pyIntVal
        rw [hs, natOf_single]
        omega
    · have hc1 : 48 ≤ c1.toNat ∧ c1.toNat ≤ 57 := by
        rcases h with ((h | h) | h) | h
        · omega
        · omega
        · omega
        · exact absurd h.1 hsp1
      have hc2 : 48 ≤ c2.toNat ∧ c2.toNat ≤ 57 := by
        rcases h with ((h | h) | h) | h
        · omega
        · omega
        · omega
        · exact absurd h.1 hsp1
      have hbounds : 1 ≤ 10 * (c1.toNat - 48) + (c2.toNat - 48) ∧
          10 * (c1.toNat - 48) + (c2.toNat - 48) ≤ 31 := by
        rcases h with ((h | h) | h) | h
        · omega
        · omega
        · omega
        · exact absurd h.1 hsp1
      have hs : stripSp [c1, c2] = [c1, c2] := stripSp_of_no_space (fun ch hm => by
        rcases List.mem_cons.mp hm with rfl | hm2
        · exact ne_space_of_toNat (by omega)
        · rcases List.mem_singleton.mp hm2 with rfl
          exact ne_space_of_toNat (by omega))
      refine ⟨?_, ?_, ?_, ?_⟩
      · intro ch hm
        rcases List.mem_cons.mp hm with rfl | hm2
        · exact ne_dash_of_toNat (by omega)
        · rcases List.mem_singleton.mp hm2 with rfl
          exact ne_dash_of_toNat (by omega)
      · rw [hs]
        intro ch hm
        rcases List.mem_cons.mp hm with rfl | hm2
        · simp only [isDig, Bool.and_eq_true, decide_eq_true_eq]
          omega
        · rcases List.mem_singleton.mp hm2 with rfl
          simp only [isDig, Bool.and_eq_true, decide_eq_true_eq]
          omega
      · unfold pyIntVal
        rw [hs, natOf_pair]
        omega
      · unfold pyIntVal
        rw [hs, natOf_pair]
        omega
  | c1 :: c2 :: c3 :: rest => simp [isDayTok] at h

theorem not_dash_of_digits {a : Str} (h : ∀ ch ∈ a, isDig ch = true) : '-' ∉ a :=
  fun hm => absurd (h '-' hm) (by decide)

theorem strptimeYmd_eq_some {s : Str} {dt : Date} (h : strptimeYmd s = some dt) :
    ∃ a b c : Str, splitDash s = [a, b, c] ∧ a.length = 4 ∧
      (∀ ch ∈ a, isDig ch = true) ∧ isMonthTok b = true ∧ isDayTok c = true ∧
      1 ≤ natOf a ∧ pyIntVal c ≤ daysInMonth (natOf a) (natOf b) ∧
      dt = ⟨natOf a, natOf b, pyIntVal c⟩ := by
  unfold strptimeYmd at h
  split at h
  next a b c heq =>
    split at h
    next hguard =>
      split at h
      next hsem =>
        simp only [Bool.and_eq_true, beq_iff_eq, List.all_eq_true] at hguard
        exact ⟨a, b, c, heq, hguard.1.1.1, hguard.1.1.2, hguard.1.2, hguard.2,
          hsem.1, hsem.2.2.2.2.2, (Option.some_inj.mp h).symm⟩
      next _ => exact absurd h (by simp)
    next _ => exact absurd h (by simp)
  next _ _ => exact absurd h (by simp)

theorem strptimeYmd_of_parts (a b c : Str) (h4 : a.length = 4)
    (hda : ∀ ch ∈ a, isDig ch = true) (hm : isMonthTok b = true)
    (hd : isDayTok c = true) (hy : 1 ≤ natOf a)
    (hdim : pyIntVal c ≤ daysInMonth (natOf a) (natOf b)) :
    strptimeYmd (a ++ '-' :: (b ++ '-' :: c)) = some ⟨natOf a, natOf b, pyIntVal c⟩ := by
  have hcdash : '-' ∉ c := fun hmem => ((isDayTok_facts c hd).1 '-' hmem) rfl
  have hsplit : splitDash (a ++ '-' :: (b ++ '-' :: c)) = [a, b, c] := by
    rw [splitDash_append a _ (not_dash_of_digits hda),
      splitDash_append b _ (not_dash_of_digits (isMonthTok_facts b hm).1),
      splitDash_no_dash c hcdash]
  have hy2 : natOf a ≤ 9999 := by
    have := natOf_lt a hda
    rw [h4] at this
    omega
  have hmf := isMonthTok_facts b hm
  have hdf := isDayTok_facts c hd
  have hguard : (a.length == 4 && a.all isDig && isMonthTok b && isDayTok c) = true := by
    rw [Bool.and_eq_true, Bool.and_eq_true, Bool.and_eq_true]
    exact ⟨⟨⟨by simp [h4], List.all_eq_true.mpr hda⟩, hm⟩, hd⟩
  simp only [strptimeYmd, hsplit, hguard, if_true]
  rw [if_pos ⟨hy, hy2, hmf.2.1, hmf.2.2, hdf.2.2.1, hdim⟩]

/-- C2 counterexample: the non-zero-padded string "2000-1-1" is accepted
by the source's Birthday validation (strptime's %m and %d fields match
one-digit months and days), although it does not match the spec's strict
zero-padded YYYY-MM-DD pattern.  The claim "every other string (including
non-zero-padded forms) fails with ValidationError" is therefore false. -/
theorem c2_counterexample :
    birthdayNew (strL "2000-1-1") = .ok (strL "2000-1-1") ∧
    ¬ specStrictYmd (strL "2000-1-1") := by
  constructor
  · rfl
  · rintro ⟨a, b, c, heq, h4, h2b, h2c, -⟩
    have hlen := congrArg List.length heq
    simp only [List.length_append, List.length_cons] at hlen
    have : (strL "2000-1-1").length = 8 := rfl
    omega

/-- C2 (amended): Birthday(raw) succeeds iff raw consists of three
dash-separated fields, where the year field is exactly 4 digits with
value at least 1, the month field matches strptime's %m (one or two
digits, value 1–12, leading zero optional), the day field matches
strptime's %d (one or two digits, leading zero or leading space
optional), and the day value — read by int(), which strips the space
padding — is valid for that month and year.  In particular
non-zero-padded forms like "2000-1-1" and space-padded days like
"2000-01- 1" are accepted. -/
theorem c2_birthday_iff (s : Str) :
    (∃ v, birthdayNew s = Except.ok v) ↔
    ∃ a b c : Str, s = a ++ '-' :: (b ++ '-' :: c) ∧ a.length = 4 ∧
      (∀ ch ∈ a, isDig ch = true) ∧ isMonthTok b = true ∧ isDayTok c = true ∧
      1 ≤ natOf a ∧ pyIntVal c ≤ daysInMonth (natOf a) (natOf b) := by
  constructor
  · rintro ⟨v, hv⟩
    unfold birthdayNew at hv
    cases hst : strptimeYmd s with
    | none => rw [hst] at hv; exact absurd hv (by simp)
    | some dt =>
      obtain ⟨a, b, c, hsp, h4, hda, hm, hd, hy, hdim, -⟩ := strptimeYmd_eq_some hst
      refine ⟨a, b, c, ?_, h4, hda, hm, hd, hy, hdim⟩
      have := joinDash_splitDash s
      rw [hsp] at this
      simpa [joinDash] using this.symm
  · rintro ⟨a, b, c, rfl, h4, hda, hm, hd, hy, hdim⟩
    refine ⟨a ++ '-' :: (b ++ '-' :: c), ?_⟩
    unfold birthdayNew
    rw [strptimeYmd_of_parts a b c h4 hda hm hd hy hdim]

theorem toNat_ofNatAux (n : Nat) (h : n.isValidChar) :
    (Char.ofNatAux n h).toNat = n := rfl

theorem lowerChar_of_digit {c : Char} (h : isDig c = true) : lowerChar c = c := by
  simp only [isDig, Bool.and_eq_true, decide_eq_true_eq] at h
  unfold lowerChar
  rw [dif_neg (by omega)]

theorem digit_lowerChar {c : Char} (h : isDig (lowerChar c) = true) :
    lowerChar c = c := by
  unfold lowerChar at h ⊢
  split at h
  next hc =>
    simp only [isDig, toNat_ofNatAux, Bool.and_eq_true, decide_eq_true_eq] at h
    exfalso
    omega
  next hc => rw [dif_neg hc]

theorem lowerS_eq_self_of {q : Str} (h : ∀ c ∈ q, lowerChar c = c) :
    lowerS q = q := by
  induction q with
  | nil => rfl
  | cons c cs ih =>
    simp only [lowerS, List.map_cons]
    rw [h c (List.mem_cons_self c cs)]
    exact congrArg (fun l => c :: l)
      (ih (fun x hx => h x (List.mem_cons_of_mem c hx)))

theorem startsWithL_subset {a b : Str} (h : startsWithL a b = true) :
    ∀ c ∈ a, c ∈ b := by
  induction a generalizing b with
  | nil => intro c hc; exact absurd hc (List.not_mem_nil c)
  | cons x xs ih =>
    cases b with
    | nil => simp [startsWithL] at h
    | cons y ys =>
      simp only [startsWithL, Bool.and_eq_true, beq_iff_eq] at h
      intro c hc
      rcases List.mem_cons.mp hc with rfl | hc'
      · exact h.1 ▸ List.mem_cons_self y ys
      · exact List.mem_cons_of_mem y (ih h.2 c hc')

theorem hasSub_subset {a h : Str} (hs : hasSub a h = true) : ∀ c ∈ a, c ∈ h := by
  induction h with
  | nil =>
    simp only [hasSub, List.isEmpty_iff] at hs
    subst hs
    intro c hc
    exact absurd hc (List.not_mem_nil c)
  | cons x xs ih =>
    simp only [hasSub, Bool.or_eq_true] at hs
    rcases hs with hs | hs
    · exact startsWithL_subset hs
    · exact fun c hc => List.mem_cons_of_mem x (ih hs c hc)

theorem hasSub_lower_digits (q p : Str) (hp : ∀ c ∈ p, isDig c = true) :
    hasSub (lowerS q) p = hasSub q p := by
  have key : hasSub (lowerS q) p = true ∨ hasSub q p = true → lowerS q = q := by
    intro h
    refine lowerS_eq_self_of (fun c hc => ?_)
    rcases h with h | h
    · exact digit_lowerChar (hp _ (hasSub_subset h _ (List.mem_map_of_mem lowerChar hc)))
    · exact lowerChar_of_digit (hp _ (hasSub_subset h _ hc))
  cases h1 : hasSub (lowerS q) p with
  | true =>
    rw [key (Or.inl h1)] at h1
    rw [h1]
  | false =>
    cases h2 : hasSub q p with
    | false => rfl
    | true =>
      have h3 : hasSub (lowerS q) p = true := by rw [key (Or.inr h2)]; exact h2
      rw [h1] at h3
      exact h3

theorem filter_map_const {α β : Type} (l : List α) (pr : α → Bool) (r : β) :
    (l.filter pr).map (fun _ => r) = List.replicate (l.countP pr) r := by
  induction l with
  | nil => rfl
  | cons x xs ih =>
    by_cases h : pr x = true
    · simp [List.filter_cons, List.countP_cons, h, ih, List.replicate_succ]
    · simp [List.filter_cons, List.countP_cons, h, ih]

theorem findMatches_eq_replicate (q : Str) (r : Rec)
    (hr : ∀ p ∈ r.phones, isValidPhone p = true) :
    findMatches q r = List.replicate
      ((if hasSub (lowerS q) (lowerS r.name) then 1 else 0) +
        r.phones.countP (fun p => hasSub q p)) r := by
  have hdig : ∀ p ∈ r.phones, ∀ c ∈ p, isDig c = true := by
    intro p hp c hc
    have := hr p hp
    simp only [isValidPhone, Bool.and_eq_true, List.all_eq_true] at this
    exact this.2 c hc
  have hfilter : r.phones.filter (fun p => hasSub (lowerS q) p)
      = r.phones.filter (fun p => hasSub q p) :=
    List.filter_congr (fun p hp => hasSub_lower_digits q p (hdig p hp))
  unfold findMatches
  rw [hfilter, filter_map_const, List.replicate_add]
  congr 1
  split <;> rfl

/-- C6: For every AddressBook and query string, find(query) returns each
Record once for each of its fields that matches: once if the query is a
case-insensitive substring of the name, plus once for each stored phone
value of which the query is a substring (phones being all-digit strings,
lowercasing the query does not change phone matches).  A Record matching
on several fields therefore appears several times.  Hypothesis: the
records' phones satisfy the `Phone` validation invariant. -/
theorem c6_find_multiplicity (book : Book) (q : Str)
    (hv : ∀ r ∈ valuesOf book, ∀ p ∈ r.phones, isValidPhone p = true) :
    find book q = (valuesOf book).flatMap (fun r =>
      List.replicate ((if hasSub (lowerS q) (lowerS r.name) then 1 else 0) +
        r.phones.countP (fun p => hasSub q p)) r) := by
  unfold find
  have main : ∀ l : List Rec, (∀ r ∈ l, ∀ p ∈ r.phones, isValidPhone p = true) →
      l.flatMap (findMatches q) = l.flatMap (fun r =>
        List.replicate ((if hasSub (lowerS q) (lowerS r.name) then 1 else 0) +
          r.phones.countP (fun p => hasSub q p)) r) := by
    intro l hl
    induction l with
    | nil => rfl
    | cons r rs ih =>
      simp only [List.flatMap_cons]
      rw [findMatches_eq_replicate q r (hl r (List.mem_cons_self r rs)),
        ih (fun x hx => hl x (List.mem_cons_of_mem r hx))]
  exact main (valuesOf book) hv

theorem dictGet_keyAt (book : Book) (hnd : (keysOf book).Nodup) (i : Nat)
    (hi : i < book.length) :
    dictGet book (keyAt book i) = ((valuesOf book)[i]?).getD ⟨[], [], none⟩ := by
  induction book generalizing i with
  | nil => simp at hi
  | cons kv rest ih =>
    rw [keysOf, List.map_cons, List.nodup_cons] at hnd
    cases i with
    | zero => simp [keyAt, keysOf, dictGet, valuesOf, List.find?_cons]
    | succ i =>
      have hi' : i < rest.length := by simpa using hi
      have hkey : keyAt (kv :: rest) (i + 1) = keyAt rest i := by
        simp [keyAt, keysOf]
      have hmem : keyAt rest i ∈ keysOf rest := by
        have hlen : i < (keysOf rest).length := by simpa [keysOf] using hi'
        rw [keyAt, List.getElem?_eq_getElem hlen, Option.getD_some]
        exact List.getElem_mem hlen
      have hne : (kv.1 == keyAt rest i) = false := by
        rw [beq_eq_false_iff_ne]
        intro h
        exact hnd.1 (h ▸ hmem)
      have hskip : dictGet (kv :: rest) (keyAt rest i) = dictGet rest (keyAt rest i) := by
        simp only [dictGet, List.find?_cons, hne]
      rw [hkey, hskip, ih hnd.2 i hi']
      simp [valuesOf]

theorem map_range_getD {α : Type} (l : List α) (d : α) (k c : Nat)
    (h : k + c ≤ l.length) :
    (List.range c).map (fun n => (l[k + n]?).getD d) = (l.drop k).take c := by
  induction c generalizing k with
  | zero => simp
  | succ c ih =>
    rw [List.range_succ_eq_map, List.map_cons, List.map_map]
    have h0 : k < l.length := by omega
    rw [List.drop_eq_getElem_cons h0, List.take_succ_cons]
    congr 1
    · simp [List.getElem?_eq_getElem h0]
    · have hcomp : ((fun n => (l[k + n]?).getD d) ∘ Nat.succ)
          = fun n => (l[(k + 1) + n]?).getD d := by
        funext n
        simp only [Function.comp_apply]
        rw [show k + Nat.succ n = k + 1 + n from by omega]
      rw [hcomp, ih (k + 1) (by omega)]

theorem sliceB_eq (book : Book) (b cur : Int) (hb : 1 ≤ b) (hcur : 0 ≤ cur)
    (hk : cur ≤ (book.length : Int)) (hnd : (keysOf book).Nodup) :
    sliceB book cur b = ((valuesOf book).drop cur.toNat).take b.toNat := by
  lift cur to Nat using hcur with k
  lift b to Nat using (by omega : (0 : Int) ≤ b) with bn
  have hbn : 1 ≤ bn := by exact_mod_cast hb
  have hkL : k ≤ book.length := by exact_mod_cast hk
  have hcle : min bn (book.length - k) ≤ book.length - k := Nat.min_le_right _ _
  have hvlen : (valuesOf book).length = book.length := by simp [valuesOf]
  have hcnt : ((min ((k : Int) + (bn : Int)) ((book.length : Nat) : Int)) - (k : Int)).toNat
      = min bn (book.length - k) := by
    rw [min_def, min_def]
    split_ifs <;> omega
  have main : List.map ((fun i => dictGet book (keyAt book i.toNat)) ∘
        (fun n : Nat => (k : Int) + (n : Int))) (List.range (min bn (book.length - k)))
      = ((valuesOf book).drop k).take (min bn (book.length - k)) := by
    refine (List.map_congr_left ?_).trans
      (map_range_getD (valuesOf book) ⟨[], [], none⟩ k _ (by rw [hvlen]; omega))
    intro n hn
    have hn' : n < min bn (book.length - k) := List.mem_range.mp hn
    simp only [Function.comp_apply]
    rw [show (((k : Int) + (n : Int)).toNat) = k + n from by omega]
    exact dictGet_keyAt book hnd (k + n) (by omega)
  rw [sliceB, intRange, hcnt, List.map_map, main, Int.toNat_natCast, Int.toNat_natCast]
  rcases le_or_lt bn (book.length - k) with hc | hc
  · rw [min_eq_left hc]
  · rw [min_eq_right (le_of_lt hc)]
    have hlen : ((valuesOf book).drop k).length = book.length - k := by
      simp [valuesOf]
    rw [List.take_of_length_le (by omega), List.take_of_length_le (by omega)]

theorem iterRun_eq_chunks (book : Book) (b : Int) (hb : 1 ≤ b)
    (hnd : (keysOf book).Nodup) :
    ∀ (fuel : Nat) (cur : Int), 0 ≤ cur → book.length - cur.toNat < fuel →
      iterRun fuel book b cur = some (chunksB b.toNat ((valuesOf book).drop cur.toNat)) := by
  intro fuel
  induction fuel with
  | zero => intro cur h0 hf; omega
  | succ fuel ih =>
    intro cur h0 hf
    rw [iterRun]
    have hvlen : (valuesOf book).length = book.length := by simp [valuesOf]
    by_cases hlt : cur < (book.length : Int)
    · rw [if_pos hlt, ih (cur + b) (by omega) (by omega), Option.map_some']
      have hvlt : cur.toNat < (valuesOf book).length := by omega
      obtain ⟨m, hm⟩ : ∃ m, b.toNat = m + 1 := ⟨b.toNat - 1, by omega⟩
      congr 1
      conv_rhs => rw [List.drop_eq_getElem_cons hvlt]
      rw [chunksB]
      congr 1
      · rw [sliceB_eq book b cur hb h0 (le_of_lt hlt) hnd,
          List.drop_eq_getElem_cons hvlt, hm,
          List.take_succ_cons, Nat.add_sub_cancel]
      · rw [List.drop_drop, hm, Nat.add_sub_cancel,
          show (cur + b).toNat = cur.toNat + 1 + m from by omega]
    · rw [if_neg hlt]
      have hnil : (valuesOf book).drop cur.toNat = [] :=
        List.drop_eq_nil_of_le (by omega)
      rw [hnil]
      simp [chunksB]

theorem chunksB_ne_nil_iff {α : Type} (b : Nat) (l : List α) :
    chunksB b l = [] ↔ l = [] := by
  cases l <;> simp [chunksB]

theorem chunksB_flatten {α : Type} (b : Nat) (l : List α) :
    (chunksB b l).flatten = l := by
  have key : ∀ (n : Nat) (l : List α), l.length ≤ n → (chunksB b l).flatten = l := by
    intro n
    induction n with
    | zero =>
      intro l hl
      have : l = [] := List.eq_nil_of_length_eq_zero (by omega)
      subst this
      simp [chunksB]
    | succ n ih =>
      intro l hl
      cases l with
      | nil => simp [chunksB]
      | cons x xs =>
        rw [chunksB, List.flatten_cons,
          ih (xs.drop (b - 1)) (by have hl2 : xs.length + 1 ≤ n + 1 := (by simpa using hl); simp only [List.length_drop]; omega)]
        simp [List.take_append_drop]
  exact key l.length l le_rfl

theorem chunksB_mem_length {α : Type} (b : Nat) (hb : 1 ≤ b) (l : List α) :
    ∀ batch ∈ chunksB b l, 1 ≤ batch.length ∧ batch.length ≤ b := by
  have key : ∀ (n : Nat) (l : List α), l.length ≤ n →
      ∀ batch ∈ chunksB b l, 1 ≤ batch.length ∧ batch.length ≤ b := by
    intro n
    induction n with
    | zero =>
      intro l hl batch hm
      have : l = [] := List.eq_nil_of_length_eq_zero (by omega)
      subst this
      simp [chunksB] at hm
    | succ n ih =>
      intro l hl batch hm
      cases l with
      | nil => simp [chunksB] at hm
      | cons x xs =>
        rw [chunksB] at hm
        rcases List.mem_cons.mp hm with rfl | hm'
        · constructor
          · simp
          · simp only [List.length_cons, List.length_take]
            omega
        · exact ih (xs.drop (b - 1)) (by have hl2 : xs.length + 1 ≤ n + 1 := (by simpa using hl); simp only [List.length_drop]; omega) batch hm'
  exact key l.length l le_rfl

theorem chunksB_dropLast_length {α : Type} (b : Nat) (hb : 1 ≤ b) (l : List α) :
    ∀ batch ∈ (chunksB b l).dropLast, batch.length = b := by
  have key : ∀ (n : Nat) (l : List α), l.length ≤ n →
      ∀ batch ∈ (chunksB b l).dropLast, batch.length = b := by
    intro n
    induction n with
    | zero =>
      intro l hl batch hm
      have : l = [] := List.eq_nil_of_length_eq_zero (by omega)
      subst this
      simp [chunksB] at hm
    | succ n ih =>
      intro l hl batch hm
      cases l with
      | nil => simp [chunksB] at hm
      | cons x xs =>
        rw [chunksB] at hm
        cases hr : chunksB b (xs.drop (b - 1)) with
        | nil => rw [hr] at hm; simp at hm
        | cons r2 rs2 =>
          rw [hr, List.dropLast_cons₂] at hm
          rcases List.mem_cons.mp hm with rfl | hm'
          · have hxs : xs.drop (b - 1) ≠ [] := by
              intro hnil
              rw [hnil] at hr
              simp [chunksB] at hr
            have hlen : b - 1 < xs.length := by
              by_contra hcon
              exact hxs (List.drop_eq_nil_of_le (by omega))
            simp only [List.length_cons, List.length_take]
            omega
          · rw [← hr] at hm'
            exact ih (xs.drop (b - 1)) (by have hl2 : xs.length + 1 ≤ n + 1 := (by simpa using hl); simp only [List.length_drop]; omega) batch hm'
  exact key l.length l le_rfl

/-- C7: For every AddressBook with distinct keys and every batch_size ≥ 1,
the iterator produces (within sufficient fuel) a finite sequence of
batches whose concatenation is exactly the records in key insertion
order; every batch is non-empty with at most batch_size records, and
every batch except possibly the last has exactly batch_size records.
Re-running the iterator on the unchanged book gives the same batches
(the model is a pure function of the book, mirroring the fresh generator
each `iterator()` call creates). -/
theorem c7_iterator (book : Book) (b : Int) (fuel : Nat) (hb : 1 ≤ b)
    (hnd : (keysOf book).Nodup) (hfuel : book.length < fuel) :
    ∃ bs, iterRun fuel book b 0 = some bs ∧
      bs.flatten = valuesOf book ∧
      (∀ batch ∈ bs.dropLast, batch.length = b.toNat) ∧
      (∀ batch ∈ bs, 1 ≤ batch.length ∧ batch.length ≤ b.toNat) ∧
      iterRun fuel book b 0 = iterRun fuel book b 0 := by
  have hbn : 1 ≤ b.toNat := by omega
  have h := iterRun_eq_chunks book b hb hnd fuel 0 le_rfl (by simpa using hfuel)
  refine ⟨chunksB b.toNat (valuesOf book), ?_, chunksB_flatten _ _,
    chunksB_dropLast_length _ hbn _, chunksB_mem_length _ hbn _, rfl⟩
  simpa using h

theorem iterRun_nonpos (book : Book) (b : Int) (hb : b ≤ 0) (hne : 0 < book.length) :
    ∀ (fuel : Nat) (cur : Int), cur ≤ 0 → iterRun fuel book b cur = none := by
  intro fuel
  induction fuel with
  | zero => intro cur h; rfl
  | succ fuel ih =>
    intro cur h
    rw [iterRun, if_pos (by omega : cur < (book.length : Int)), ih (cur + b) (by omega)]
    rfl

/-- C8 counterexample: on a one-record book with batch_size = 0, the
iterator raises no precondition error; even after 100 loop iterations the
run has not finished (`iterRun` with fuel 100 is still `none`) and the
loop counter is still alive at 0, so the generator yields empty batches
forever instead of failing fast. -/
theorem c8_counterexample :
    iterRun 100 [((strL "Alice"), (⟨strL "Alice", [strL "1234567890"], none⟩ : Rec))] 0 0
      = none ∧
    iterCur 1 0 100 = some 0 := by
  constructor
  · exact iterRun_nonpos _ 0 (by decide) (by decide) 100 0 le_rfl
  · decide

/-- C8 (amended): For every non-empty AddressBook and every
batch_size ≤ 0, the iterator raises no error and never terminates: the
collected run is `none` for every amount of fuel, and after any number
of yielded batches the loop counter is still `some` value ≤ 0, so the
`while` loop condition keeps holding. -/
theorem c8_amended (book : Book) (b : Int) (fuel n : Nat)
    (hne : 0 < book.length) (hb : b ≤ 0) :
    iterRun fuel book b 0 = none ∧
    ∃ cur, iterCur book.length b n = some cur ∧ cur ≤ 0 := by
  refine ⟨iterRun_nonpos book b hb hne fuel 0 le_rfl, ?_⟩
  induction n with
  | zero => exact ⟨0, rfl, le_rfl⟩
  | succ n ih =>
    obtain ⟨cur, hc, hle⟩ := ih
    refine ⟨cur + b, ?_, by omega⟩
    rw [iterCur, hc]
    show iterStep book.length b cur = some (cur + b)
    rw [iterStep, if_pos (by omega : cur < (book.length : Int))]

/-- C6 witness: a record named "Anna" with phones "1234512345" and
"0001234000" matches the query "123" on both phones (not on the name),
so it appears exactly twice in the result. -/
theorem c6_witness :
    (∀ r ∈ valuesOf wbookAnna, ∀ p ∈ r.phones, isValidPhone p = true) ∧
    find wbookAnna (strL "123") = (valuesOf wbookAnna).flatMap (fun r =>
      List.replicate ((if hasSub (lowerS (strL "123")) (lowerS r.name) then 1 else 0) +
        r.phones.countP (fun p => hasSub (strL "123") p)) r) :=
  ⟨by decide, c6_find_multiplicity wbookAnna (strL "123") (by decide)⟩

/-- C7 witness: three records, batch size 2: batches [r1, r2] then [r3]. -/
theorem c7_witness :
    ((1 : Int) ≤ 2 ∧ (keysOf wbook3).Nodup ∧ wbook3.length < 4) ∧
    (∃ bs, iterRun 4 wbook3 2 0 = some bs ∧
      bs.flatten = valuesOf wbook3 ∧
      (∀ batch ∈ bs.dropLast, batch.length = (2 : Int).toNat) ∧
      (∀ batch ∈ bs, 1 ≤ batch.length ∧ batch.length ≤ (2 : Int).toNat) ∧
      iterRun 4 wbook3 2 0 = iterRun 4 wbook3 2 0) :=
  ⟨⟨by decide, by decide, by decide⟩,
    c7_iterator wbook3 2 4 (by decide) (by decide) (by decide)⟩

/-- C8 witness: a non-empty book with batch size −1 never terminates. -/
theorem c8_witness :
    (0 < wbook1.length ∧ (-1 : Int) ≤ 0) ∧
    (iterRun 5 wbook1 (-1) 0 = none ∧
      ∃ cur, iterCur wbook1.length (-1) 5 = some cur ∧ cur ≤ 0) :=
  ⟨⟨by decide, by decide⟩, c8_amended wbook1 (-1) 5 5 (by decide) (by decide)⟩

theorem decodePhones_encode (ps : List Str) (rest : List Tok) :
    decodePhones ps.length (ps.map Tok.str ++ rest) = .ok (ps, rest) := by
  induction ps with
  | nil => rfl
  | cons p ps ih =>
    simp only [List.length_cons, List.map_cons, List.cons_append, decodePhones,
      List.append_eq, ih]

theorem decodeRec_encode (r : Rec) (rest : List Tok) :
    decodeRec (encodeRec r ++ rest) = .ok (r, rest) := by
  obtain ⟨nm, ps, bd⟩ := r
  cases bd with
  | none =>
    have h : encodeRec ⟨nm, ps, none⟩ ++ rest
        = Tok.tagRecord :: Tok.str nm :: Tok.nat ps.length ::
            (ps.map Tok.str ++ (Tok.tagNone :: rest)) := by
      simp [encodeRec]
    rw [h]
    simp only [decodeRec, decodePhones_encode]
  | some bdv =>
    have h : encodeRec ⟨nm, ps, some bdv⟩ ++ rest
        = Tok.tagRecord :: Tok.str nm :: Tok.nat ps.length ::
            (ps.map Tok.str ++ (Tok.tagSome :: Tok.str bdv :: rest)) := by
      simp [encodeRec]
    rw [h]
    simp only [decodeRec, decodePhones_encode]

theorem decodeEntries_encode (es : Book) (rest : List Tok) :
    decodeEntries es.length
        (es.flatMap (fun kv => Tok.str kv.1 :: encodeRec kv.2) ++ rest)
      = .ok (es, rest) := by
  induction es generalizing rest with
  | nil => rfl
  | cons kv es ih =>
    obtain ⟨k, r⟩ := kv
    have h : (((k, r) :: es).flatMap (fun kv => Tok.str kv.1 :: encodeRec kv.2)) ++ rest
        = Tok.str k ::
            (encodeRec r ++ (es.flatMap (fun kv => Tok.str kv.1 :: encodeRec kv.2) ++ rest)) := by
      simp [List.flatMap_cons, List.append_assoc]
    rw [List.length_cons, h]
    simp only [decodeEntries, decodeRec_encode, ih]

theorem decodeBook_encode (book : Book) : decodeBook (encodeBook book) = .ok book := by
  have h := decodeEntries_encode book []
  rw [List.append_nil] at h
  simp only [encodeBook, decodeBook, h]

/-- C4: For every AddressBook, loading the file produced by save yields
an AddressBook structurally identical to the original: the same keys in
the same order, and for every Record the same name, the same phone
sequence in the same order, and the same optional birthday (the model's
equality is componentwise on exactly these fields). -/
theorem c4_roundtrip (book : Book) : load (some (save book)) = .ok (some book) := by
  simp only [load, save, decodeBook_encode]

/-- C3: the code violates the claim.  On a file whose pickled stream
references an unknown class — so `pickle.load` raises `AttributeError` —
`load` returns `None` (an absent book) instead of failing: the
`except AttributeError: return None` branch (main.py lines 174–175)
silently swallows the parse failure.  (A malformed stream, by contrast,
does propagate as an unpickling error, second conjunct.) -/
theorem c3_load_attr_error :
    load (some [Tok.tagOther (strL "AddressBook")]) = .ok none ∧
    load (some [Tok.nat 7]) = .error .unpickling := ⟨rfl, rfl⟩

theorem leapBit_le_one (y : Nat) : leapBit y ≤ 1 := by
  unfold leapBit
  split <;> omega

theorem dbm_succ (y m : Nat) : dbm y (m + 1) = dbm y m + daysInMonth y m := rfl

theorem dbm_eq (y m : Nat) : dbm y m = dbmBase m + (if 3 ≤ m then leapBit y else 0) := by
  induction m with
  | zero => simp [dbm, dbmBase]
  | succ m ih =>
    have e1 : dbm y (m + 1) = dbm y m + daysInMonth y m := rfl
    have e2 : dbmBase (m + 1) = dbmBase m + dimBase m := rfl
    have e3 : daysInMonth y m = dimBase m + (if m = 2 then leapBit y else 0) := rfl
    rw [e1, e2, e3, ih]
    split_ifs <;> omega

set_option maxHeartbeats 1000000 in
theorem leapsBefore_succ (y : Nat) :
    leapsBefore (y + 1) = leapsBefore y + leapBit (y + 1) := by
  have hiff : isLeap (y + 1) = true ↔
      ((y + 1) % 4 = 0 ∧ ((y + 1) % 100 ≠ 0 ∨ (y + 1) % 400 = 0)) := by
    simp [isLeap]
  have hb : leapBit (y + 1)
      = if ((y + 1) % 4 = 0 ∧ ((y + 1) % 100 ≠ 0 ∨ (y + 1) % 400 = 0)) then 1 else 0 := by
    unfold leapBit
    by_cases h : isLeap (y + 1) = true
    · rw [if_pos h, if_pos (hiff.mp h)]
    · rw [if_neg h, if_neg (fun hc => h (hiff.mpr hc))]
  rw [hb]
  unfold leapsBefore
  split_ifs with h <;> omega

theorem dbm_mono (y : Nat) {m m' : Nat} (h : m ≤ m') : dbm y m ≤ dbm y m' := by
  induction h with
  | refl => exact le_rfl
  | step h2 ih => exact le_trans ih (by rw [dbm_succ]; omega)

theorem dbmBase_13 : dbmBase 13 = 365 := by decide

theorem doy_le (y m d : Nat) (hm2 : m ≤ 12) (hd2 : d ≤ daysInMonth y m) :
    dbm y m + d ≤ 365 + leapBit y := by
  have h13 : dbm y 13 = 365 + leapBit y := by
    rw [dbm_eq, dbmBase_13]
    simp
  have hmono := dbm_mono y (show m + 1 ≤ 13 by omega)
  have hstep : dbm y (m + 1) = dbm y m + daysInMonth y m := rfl
  omega

theorem toOrdinal_lt (u v : Date) (hu : validDate u) (hv : validDate v)
    (h : dateLt u v = true) : toOrdinal u < toOrdinal v := by
  obtain ⟨hu1, hu2, hu3, hu4, hu5, hu6⟩ := hu
  obtain ⟨hv1, hv2, hv3, hv4, hv5, hv6⟩ := hv
  simp only [dateLt, Bool.or_eq_true, Bool.and_eq_true, decide_eq_true_eq,
    beq_iff_eq] at h
  unfold toOrdinal
  rcases h with hy | ⟨hy, h⟩
  · have hdu := doy_le u.y u.m u.d hu4 hu6
    have hdsum : ∀ z : Nat, 1 ≤ z →
        365 * (z - 1) + leapsBefore (z - 1) + (365 + leapBit z)
          = 365 * z + leapsBefore z := by
      intro z hz
      obtain ⟨w, rfl⟩ : ∃ w, z = w + 1 := ⟨z - 1, by omega⟩
      have := leapsBefore_succ w
      simp only [Nat.add_sub_cancel]
      omega
    have hmono : ∀ z z' : Nat, z ≤ z' →
        365 * z + leapsBefore z ≤ 365 * z' + leapsBefore z' := by
      intro z z' hzz
      induction hzz with
      | refl => exact le_rfl
      | @step n h2 ih =>
        have hs := leapsBefore_succ n
        simp only [Nat.succ_eq_add_one]
        omega
    have h1 := hdsum u.y hu1
    have h2 := hmono u.y (v.y - 1) (by omega)
    have h3 : 1 ≤ dbm v.y v.m + v.d := by omega
    omega
  · rcases h with hm | ⟨hm, hd⟩
    · rw [hy]
      have h1 : u.d ≤ daysInMonth v.y u.m := by rw [← hy]; exact hu6
      have hstep : dbm v.y (u.m + 1) = dbm v.y u.m + daysInMonth v.y u.m := rfl
      have hmono := dbm_mono v.y (show u.m + 1 ≤ v.m by omega)
      omega
    · rw [hy, hm]
      omega

theorem toOrdinal_le_of_not_lt (u v : Date) (hu : validDate u) (hv : validDate v)
    (h : dateLt v u = false) : toOrdinal u ≤ toOrdinal v := by
  by_cases heq : u = v
  · rw [heq]
  · refine le_of_lt (toOrdinal_lt u v hu hv ?_)
    have hne : ¬(u.y = v.y ∧ u.m = v.m ∧ u.d = v.d) := by
      intro hc
      apply heq
      obtain ⟨h1, h2, h3⟩ := hc
      cases u
      cases v
      simp_all
    have hlt : ¬(dateLt v u = true) := by rw [h]; simp
    simp only [dateLt, Bool.or_eq_true, Bool.and_eq_true, decide_eq_true_eq,
      beq_iff_eq] at hlt ⊢
    omega

theorem toOrdinal_year_succ (y m d : Nat) (hy : 1 ≤ y) :
    toOrdinal ⟨y + 1, m, d⟩ ≤ toOrdinal ⟨y, m, d⟩ + 366 := by
  obtain ⟨w, rfl⟩ : ∃ w, y = w + 1 := ⟨y - 1, by omega⟩
  unfold toOrdinal
  simp only [Nat.add_sub_cancel]
  have h1 := leapsBefore_succ w
  have h2 := dbm_eq (w + 1) m
  have h3 := dbm_eq (w + 1 + 1) m
  have h4 := leapBit_le_one (w + 1)
  have h5 := leapBit_le_one (w + 1 + 1)
  rw [h2, h3, h1]
  split_ifs <;> omega

theorem dim_shift (y z bm bd : Nat) (hdim : bd ≤ daysInMonth y bm)
    (hfeb : ¬(bm = 2 ∧ bd = 29)) : bd ≤ daysInMonth z bm := by
  by_cases h2 : bm = 2
  · subst h2
    have hy := leapBit_le_one y
    have hz := leapBit_le_one z
    have e1 : daysInMonth y 2 = 28 + leapBit y := rfl
    have e2 : daysInMonth z 2 = 28 + leapBit z := rfl
    have hne : bd ≠ 29 := fun hc => hfeb ⟨rfl, hc⟩
    omega
  · have e1 : daysInMonth y bm = dimBase bm + 0 := by simp [daysInMonth, h2]
    have e2 : daysInMonth z bm = dimBase bm + 0 := by simp [daysInMonth, h2]
    omega

/-- C9 counterexample: "2000-02-29" is a validly constructed Birthday
(2000 is a leap year), but evaluating days_to_birthday on 2023-05-01
raises ValueError instead of returning a day count, because
`replace(year=2023)` re-validates Feb 29 against the non-leap year 2023.
This refutes the claim's quantification over every Record with a
birthday set and every evaluation date. -/
theorem c9_counterexample :
    birthdayNew (strL "2000-02-29") = .ok (strL "2000-02-29") ∧
    recDaysToBirthday ⟨strL "John", [strL "1234567890"], some (strL "2000-02-29")⟩
        ⟨2023, 5, 1⟩ = .error "day is out of range for month" := ⟨rfl, rfl⟩

/-- C10: the error branch of days_to_birthday is reachable for a Birthday
that passed construction-time validation: "2000-02-29" validates (leap
year 2000), yet on the evaluation date 2021-03-15 (2021 not a leap year)
the re-anchoring `replace(year=2021)` fails with ValueError, so the
operation does not return an integer. -/
theorem c10_feb29_error_reachable :
    birthdayNew (strL "2000-02-29") = .ok (strL "2000-02-29") ∧
    isLeap 2000 = true ∧ isLeap 2021 = false ∧
    recDaysToBirthday ⟨strL "Ann", [], some (strL "2000-02-29")⟩ ⟨2021, 3, 15⟩
      = .error "day is out of range for month" := ⟨rfl, rfl, rfl, rfl⟩

/-- C9 (amended): days_to_birthday returns an absent value when no
birthday is set; and for every Record whose stored birthday parses to a
month/day other than February 29, and every valid evaluation date with
year ≤ 9998, it returns an integer k with 0 ≤ k ≤ 366, k = 0 when today
is the birthday's month/day, and k ≥ 1 when the birthday's date this
year has already passed.  (For February-29 birthdays the year
re-anchoring can raise ValueError — claim C10.) -/
theorem c9_amended :
    (∀ (r : Rec) (t : Date), r.birthday = none → recDaysToBirthday r t = .ok none) ∧
    (∀ (r : Rec) (t : Date) (s : Str) (y bm bd : Nat),
      r.birthday = some s → strptimeYmd s = some ⟨y, bm, bd⟩ →
      ¬(bm = 2 ∧ bd = 29) → validDate t → t.y ≤ 9998 →
      ∃ k : Int, recDaysToBirthday r t = .ok (some k) ∧ 0 ≤ k ∧ k ≤ 366 ∧
        (t.m = bm → t.d = bd → k = 0) ∧
        (dateLt ⟨t.y, bm, bd⟩ t = true → 1 ≤ k)) := by
  constructor
  · intro r t h
    simp [recDaysToBirthday, h]
  · intro r t s y bm bd hbs hst hfeb ht hty
    obtain ⟨a, bb, cc, hsp, h4, hda, hmt, hdt, hy1, hdimb, hdteq⟩ := strptimeYmd_eq_some hst
    injection hdteq with e1 e2 e3
    subst e1
    subst e2
    subst e3
    have hmf := isMonthTok_facts bb hmt
    have hdf := isDayTok_facts cc hdt
    have hy2 : natOf a ≤ 9999 := by
      have := natOf_lt a hda
      rw [h4] at this
      omega
    obtain ⟨ht1, ht2, ht3, ht4, ht5, ht6⟩ := ht
    have hsa : stripSp a = a := stripSp_digits hda
    have hsb : stripSp bb = bb := stripSp_digits hmf.1
    have hane : a ≠ [] := by
      intro hh
      rw [hh] at h4
      simp at h4
    have hbne : bb ≠ [] := by
      intro hh
      have h1b := hmf.2.1
      rw [hh] at h1b
      simp [natOf] at h1b
    have hscne : stripSp cc ≠ [] := by
      intro hh
      have h1c := hdf.2.2.1
      unfold pyIntVal at h1c
      rw [hh] at h1c
      simp [natOf] at h1c
    have hpa : pyIntVal a = natOf a := pyIntVal_digits hda
    have hpb : pyIntVal bb = natOf bb := pyIntVal_digits hmf.1
    have hguard : stripSp a ≠ [] ∧ (∀ ch ∈ stripSp a, isDig ch = true) ∧
        stripSp bb ≠ [] ∧ (∀ ch ∈ stripSp bb, isDig ch = true) ∧
        stripSp cc ≠ [] ∧ (∀ ch ∈ stripSp cc, isDig ch = true) :=
      ⟨by rw [hsa]; exact hane, by rw [hsa]; exact hda,
        by rw [hsb]; exact hbne, by rw [hsb]; exact hmf.1, hscne, hdf.2.1⟩
    have hpd : validDate ⟨natOf a, natOf bb, pyIntVal cc⟩ :=
      ⟨hy1, hy2, hmf.2.1, hmf.2.2, hdf.2.2.1, hdimb⟩
    have hdim_t : pyIntVal cc ≤ daysInMonth t.y (natOf bb) :=
      dim_shift (natOf a) t.y _ _ hdimb hfeb
    have hval_t : validDate ⟨t.y, natOf bb, pyIntVal cc⟩ :=
      ⟨ht1, ht2, hmf.2.1, hmf.2.2, hdf.2.2.1, hdim_t⟩
    have hred : recDaysToBirthday r t
        = daysToBirthdayD (some ⟨natOf a, natOf bb, pyIntVal cc⟩) t := by
      simp only [recDaysToBirthday, hbs, hsp, if_pos hguard, hpa, hpb, pyDate,
        if_pos hpd]
    have hrp1 : replaceYear ⟨natOf a, natOf bb, pyIntVal cc⟩ t.y
        = .ok ⟨t.y, natOf bb, pyIntVal cc⟩ := by
      simp only [replaceYear]
      rw [if_pos hval_t]
    rw [hred]
    simp only [daysToBirthdayD, hrp1]
    by_cases hroll : dateLt ⟨t.y, natOf bb, pyIntVal cc⟩ t = true
    · rw [if_pos hroll]
      have hdim_t1 : pyIntVal cc ≤ daysInMonth (t.y + 1) (natOf bb) :=
        dim_shift (natOf a) (t.y + 1) _ _ hdimb hfeb
      have hval_t1 : validDate ⟨t.y + 1, natOf bb, pyIntVal cc⟩ :=
        ⟨(show 1 ≤ t.y + 1 by omega), (show t.y + 1 ≤ 9999 by omega),
          hmf.2.1, hmf.2.2, hdf.2.2.1, hdim_t1⟩
      have hrp2 : replaceYear ⟨t.y, natOf bb, pyIntVal cc⟩ (t.y + 1)
          = .ok ⟨t.y + 1, natOf bb, pyIntVal cc⟩ := by
        simp only [replaceYear]
        rw [if_pos hval_t1]
      simp only [hrp2]
      have hlt2 : toOrdinal t < toOrdinal ⟨t.y + 1, natOf bb, pyIntVal cc⟩ := by
        apply toOrdinal_lt t _ ⟨ht1, ht2, ht3, ht4, ht5, ht6⟩ hval_t1
        simp only [dateLt, Bool.or_eq_true, decide_eq_true_eq]
        exact Or.inl (by omega)
      refine ⟨_, rfl, ?_, ?_, ?_, ?_⟩
      · omega
      · have hys := toOrdinal_year_succ t.y (natOf bb) (pyIntVal cc) ht1
        have hlt1 : toOrdinal ⟨t.y, natOf bb, pyIntVal cc⟩ < toOrdinal t :=
          toOrdinal_lt _ t hval_t ⟨ht1, ht2, ht3, ht4, ht5, ht6⟩ hroll
        omega
      · intro h1 h2
        exfalso
        rw [← h1, ← h2] at hroll
        simp only [dateLt, Bool.or_eq_true, Bool.and_eq_true, decide_eq_true_eq,
          beq_iff_eq] at hroll
        omega
      · intro _
        omega
    · rw [if_neg hroll]
      have hroll' : dateLt ⟨t.y, natOf bb, pyIntVal cc⟩ t = false := by
        rw [Bool.not_eq_true] at hroll
        exact hroll
      have hle : toOrdinal t ≤ toOrdinal ⟨t.y, natOf bb, pyIntVal cc⟩ :=
        toOrdinal_le_of_not_lt t _ ⟨ht1, ht2, ht3, ht4, ht5, ht6⟩ hval_t hroll'
      refine ⟨_, rfl, ?_, ?_, ?_, ?_⟩
      · omega
      · have hnb := doy_le t.y (natOf bb) (pyIntVal cc) hmf.2.2 hdim_t
        have hbit := leapBit_le_one t.y
        have e1 : toOrdinal ⟨t.y, natOf bb, pyIntVal cc⟩
            = 365 * (t.y - 1) + leapsBefore (t.y - 1) + dbm t.y (natOf bb) + pyIntVal cc := rfl
        have e2 : toOrdinal t
            = 365 * (t.y - 1) + leapsBefore (t.y - 1) + dbm t.y t.m + t.d := rfl
        have hd1 : 1 ≤ dbm t.y t.m + t.d := by omega
        rw [e1, e2]
        omega
      · intro h1 h2
        rw [← h1, ← h2]
        have hself : (⟨t.y, t.m, t.d⟩ : Date) = t := rfl
        rw [hself]
        omega
      · intro hcon
        exact absurd hcon hroll

/-- Space-padded days matched by strptime's fifth %d alternative go
through the whole pipeline like in the program: "2000-01- 1" validates
as a Birthday, and days_to_birthday re-reads the stored string with
int(" 1") = 1 and returns a day count (2023-05-01 to 2024-01-01 is 245
days). -/
theorem birthday_space_padded_day :
    birthdayNew (strL "2000-01- 1") = .ok (strL "2000-01- 1") ∧
    recDaysToBirthday ⟨strL "Pat", [], some (strL "2000-01- 1")⟩ ⟨2023, 5, 1⟩
      = .ok (some 245) := ⟨rfl, rfl⟩

/-- C9 witness: birthday 2000-01-01, evaluated on 2023-05-01. -/
theorem c9_witness :
    (strptimeYmd (strL "2000-01-01") = some ⟨2000, 1, 1⟩ ∧
      ¬((1 : Nat) = 2 ∧ (1 : Nat) = 29) ∧
      validDate ⟨2023, 5, 1⟩ ∧ (2023 : Nat) ≤ 9998) ∧
    recDaysToBirthday ⟨strL "NoBday", [], none⟩ ⟨2023, 5, 1⟩ = .ok none ∧
    (∃ k : Int,
      recDaysToBirthday ⟨strL "John", [strL "1234567890"], some (strL "2000-01-01")⟩
          ⟨2023, 5, 1⟩ = .ok (some k) ∧ 0 ≤ k ∧ k ≤ 366 ∧
        ((5 : Nat) = 1 → (1 : Nat) = 1 → k = 0) ∧
        (dateLt ⟨2023, 1, 1⟩ ⟨2023, 5, 1⟩ = true → 1 ≤ k)) :=
  ⟨⟨by decide, by decide, by decide, by decide⟩,
    (c9_amended).1 ⟨strL "NoBday", [], none⟩ ⟨2023, 5, 1⟩ rfl,
    (c9_amended).2 ⟨strL "John", [strL "1234567890"], some (strL "2000-01-01")⟩
      ⟨2023, 5, 1⟩ (strL "2000-01-01") 2000 1 1 rfl (by decide) (by decide)
      (by decide) (by decide)⟩

end BotCli
